import Mathlib

/-!
Verification development for the `go-abi-decoder` repository.

The Go sources are shallowly embedded: Go strings become Lean `String`
(the fragments and bytecodes involved are plain ASCII hex, where Go's
byte length and Lean's character length agree), byte slices become
`List Nat` with every element below 256, Go maps become association
lists with one entry per key, and functions of the external
`go-ethereum` library (argument unpacking, checksum rendering, the
chain client) are modelled as explicit parameters or abstract data.
`log.Fatal`, which terminates the process, is modelled by a dedicated
`fatal` outcome.
-/

set_option maxRecDepth 4000

/-! ## Go string primitives (`strings.Contains`, `strings.Replace`, `strings.TrimPrefix`) -/

/-- `leadsWith pat s` models Go's internal test that `s` starts with `pat`. -/
def leadsWith : List Char → List Char → Bool
  | [], _ => true
  | _ :: _, [] => false
  | p :: ps, c :: cs => p == c && leadsWith ps cs

/-- `listContains s pat` models `strings.Contains(s, pat)`. -/
def listContains : List Char → List Char → Bool
  | s, pat =>
    leadsWith pat s ||
      match s with
      | [] => false
      | _ :: rest => listContains rest pat

/-- `listDropFirst s pat` models `strings.Replace(s, pat, "", 1)`:
the first occurrence of `pat` is removed; with an empty `pat` Go
inserts the empty replacement and returns `s` unchanged. -/
def listDropFirst : List Char → List Char → List Char
  | s, [] => s
  | [], _ :: _ => []
  | c :: cs, p :: ps =>
    if leadsWith (p :: ps) (c :: cs) then cs.drop ps.length
    else c :: listDropFirst cs (p :: ps)

/-- `strContains` lifts `listContains` to `String`. -/
def strContains (s pat : String) : Bool := listContains s.data pat.data

/-- `strDropFirst` lifts `listDropFirst` to `String`. -/
def strDropFirst (s pat : String) : String := ⟨listDropFirst s.data pat.data⟩

/-- Models `strings.TrimPrefix(code, "0x")`. -/
def strTrim0x (s : String) : String :=
  if leadsWith ['0', 'x'] s.data then ⟨s.data.drop 2⟩ else s

example : strContains "acb" "cb" = true := by decide
example : strContains "acb" "ab" = false := by decide
example : strDropFirst "acb" "c" = "ab" := by decide
example : strTrim0x "0xab" = "ab" := by decide

/-! ## Well-known literals (`utils.go`) -/

def EtherAddress : String := "0x0000000000000000000000000000000000000000"

def TransferTopic : String :=
  "0xddf252ad1be2c89b69c2b068fc378daa952ba7f163c4a11628f55a4df523b3ef"

/-! ## The bytecode signature matcher (`utils.go`, `DetectBytecodes`)

Go's `sort.Slice` with comparator `len(signatures[i]) < len(signatures[j])`
produces some permutation sorted ascending by length; the model fixes the
stable one (`List.insertionSort`).  The scan loop below mirrors the Go
loop body exactly: trim an optional `0x` prefix, test containment in the
working copy, and on a match remove the first occurrence and bump the
counter. -/

def strLenLE (a b : String) : Prop := a.length ≤ b.length

instance : DecidableRel strLenLE := fun a b => Nat.decLe a.length b.length

instance : IsTotal String strLenLE := ⟨fun a b => Nat.le_total a.length b.length⟩

instance : IsTrans String strLenLE := ⟨fun _ _ _ h h' => Nat.le_trans h h'⟩

namespace Utils

/-- The `for _, code := range signatures` loop of `DetectBytecodes`,
returning the final counter and working copy. -/
def scanSigs : List String → String → Nat → Nat × String
  | [], remaining, found => (found, remaining)
  | code :: rest, remaining, found =>
    let c := strTrim0x code
    if strContains remaining c then scanSigs rest (strDropFirst remaining c) (found + 1)
    else scanSigs rest remaining found

/-- `DetectBytecodes` from `utils.go`, also returning the sorted slice
that the Go function leaves behind in the caller's `signatures`
argument (the sort happens in place). -/
def DetectBytecodesFull (bytecode : String) (signatures : List String) :
    Bool × List String :=
  let sorted := List.insertionSort strLenLE signatures
  ((scanSigs sorted bytecode 0).1 == sorted.length, sorted)

/-- The boolean result of `DetectBytecodes`. -/
def DetectBytecodes (bytecode : String) (signatures : List String) : Bool :=
  (DetectBytecodesFull bytecode signatures).1

/-- Specification-side restatement of the scan: every fragment, in
order, occurs in the working copy at its turn. -/
def scanAll : List String → String → Bool
  | [], _ => true
  | code :: rest, remaining =>
    let c := strTrim0x code
    strContains remaining c && scanAll rest (strDropFirst remaining c)

/-- `IsToken` from `utils.go`.  Note: the Go function passes
`TransferTopic[2:]` — not its `bytecode` parameter — as the first
argument of `DetectBytecodes`; the parameter is unused.  This is
embedded faithfully. -/
def IsToken (bytecode : String) : Bool :=
  DetectBytecodes (TransferTopic.drop 2)
    [TransferTopic.drop 2, "00ebf37d", "f242432a"]

/-- `IsERC1155` from `utils.go`. -/
def IsERC1155 (bytecode : String) : Bool :=
  DetectBytecodes bytecode
    [TransferTopic.drop 2, "00ebf37d", "4e1273f4", "a22cb465", "e985e9c5",
      "f242432a", "bc197c81"]

/-- `IsERC721` from `utils.go`. -/
def IsERC721 (bytecode : String) : Bool :=
  IsToken bytecode && strContains bytecode "6352211e"

/-- `IsERC20` from `utils.go` (textually identical to `IsERC721`). -/
def IsERC20 (bytecode : String) : Bool :=
  IsToken bytecode && strContains bytecode "6352211e"

/-- `DetectTokenStandard` from `utils.go`. -/
def DetectTokenStandard (bytecode : String) : String :=
  if IsERC721 bytecode then "ERC721"
  else if IsERC20 bytecode then "ERC20"
  else if IsERC1155 bytecode then "ERC1155"
  else "UNKNOWN"

end Utils

namespace Helpers

/-- `IsToken` from the `helpers.go` revision: a plain containment test
of the Transfer-event topic fragment against the bytecode. -/
def IsToken (bytecode : String) : Bool :=
  strContains bytecode (TransferTopic.drop 2)

/-- `IsERC721` from the `helpers.go` revision. -/
def IsERC721 (bytecode : String) : Bool :=
  IsToken bytecode && strContains bytecode "6352211e"

/-- `IsERC20` from the `helpers.go` revision (textually identical to
`IsERC721`). -/
def IsERC20 (bytecode : String) : Bool :=
  IsToken bytecode && strContains bytecode "6352211e"

end Helpers

example : Utils.DetectBytecodes "acb" ["c", "ab"] = true := by decide
example : Utils.DetectBytecodes "0123cdef" ["0x0123", "cdef"] = true := by decide
example : Utils.DetectBytecodes "0123" ["0123", "0123"] = false := by decide
example : Helpers.IsToken (TransferTopic.drop 2) = true := by decide

/-! ## Go map operations

Go maps hold at most one entry per key; reads return the zero value
(`nil`) on a miss and assignment overwrites.  The model keeps entries
in a list with a read (`mapGet`) and an overwrite-insert (`mapSet`). -/

/-- Read of a Go map (`m[k]`, second result of the comma-ok idiom folded
into `Option`). -/
def mapGet {κ α : Type} [DecidableEq κ] : List (κ × α) → κ → Option α
  | [], _ => none
  | (k, v) :: rest, key => if key = k then some v else mapGet rest key

/-- Write of a Go map (`m[k] = v`): any existing entry for `k` is
replaced. -/
def mapSet {κ α : Type} [DecidableEq κ] (m : List (κ × α)) (k : κ) (v : α) :
    List (κ × α) :=
  m.filter (fun p => decide (p.1 ≠ k)) ++ [(k, v)]

/-- Writing every entry of `entries` into `m` in order, as in
`for name, method := range src { dst[name] = method }`. -/
def mapSetAll {κ α : Type} [DecidableEq κ] (m entries : List (κ × α)) :
    List (κ × α) :=
  entries.foldl (fun acc kv => mapSet acc kv.1 kv.2) m

theorem mapGet_append {κ α : Type} [DecidableEq κ] (l₁ l₂ : List (κ × α)) (k : κ) :
    mapGet (l₁ ++ l₂) k = ((mapGet l₁ k).rec (mapGet l₂ k) fun v => some v) := by
  induction l₁ with
  | nil => simp [mapGet]
  | cons hd tl ih =>
    obtain ⟨k', v'⟩ := hd
    by_cases h : k = k' <;> simp [mapGet, h, ih]

theorem mapGet_filter_ne {κ α : Type} [DecidableEq κ] (m : List (κ × α)) (k k' : κ)
    (h : k' ≠ k) :
    mapGet (m.filter (fun p => decide (p.1 ≠ k))) k' = mapGet m k' := by
  induction m with
  | nil => rfl
  | cons hd tl ih =>
    obtain ⟨k₀, v₀⟩ := hd
    simp only [ne_eq, decide_not] at ih ⊢
    by_cases hk : k₀ = k
    · subst hk
      have : k' ≠ k₀ := h
      simp [mapGet, this, ih]
    · by_cases hk' : k' = k₀ <;> simp [mapGet, hk, hk', ih]

theorem mapGet_filter_self {κ α : Type} [DecidableEq κ] (m : List (κ × α)) (k : κ) :
    mapGet (m.filter (fun p => decide (p.1 ≠ k))) k = none := by
  induction m with
  | nil => rfl
  | cons hd tl ih =>
    obtain ⟨k₀, v₀⟩ := hd
    simp only [ne_eq, decide_not] at ih ⊢
    by_cases hk : k₀ = k
    · simp [hk, ih]
    · have : k ≠ k₀ := fun h => hk h.symm
      simp [mapGet, hk, this, ih]

theorem mapGet_mapSet_self {κ α : Type} [DecidableEq κ] (m : List (κ × α)) (k : κ) (v : α) :
    mapGet (mapSet m k v) k = some v := by
  rw [mapSet, mapGet_append, mapGet_filter_self]
  simp [mapGet]

theorem mapGet_mapSet_other {κ α : Type} [DecidableEq κ] (m : List (κ × α)) (k k' : κ) (v : α)
    (h : k' ≠ k) :
    mapGet (mapSet m k v) k' = mapGet m k' := by
  rw [mapSet, mapGet_append, mapGet_filter_ne m k k' h]
  cases hm : mapGet m k' with
  | none => simp [mapGet, h]
  | some w => simp

theorem mapGet_eq_none_of_not_mem {κ α : Type} [DecidableEq κ] (m : List (κ × α)) (k : κ)
    (h : k ∉ m.map Prod.fst) : mapGet m k = none := by
  induction m with
  | nil => rfl
  | cons hd tl ih =>
    obtain ⟨k₀, v₀⟩ := hd
    simp only [List.map_cons, List.mem_cons] at h
    push_neg at h
    simp [mapGet, h.1, ih h.2]

theorem mapGet_mapSetAll {κ α : Type} [DecidableEq κ] (m entries : List (κ × α)) (k : κ)
    (hnd : (entries.map Prod.fst).Nodup) :
    mapGet (mapSetAll m entries) k =
      ((mapGet entries k).rec (mapGet m k) fun v => some v) := by
  induction entries generalizing m with
  | nil => rfl
  | cons hd tl ih =>
    obtain ⟨k₀, v₀⟩ := hd
    simp only [List.map_cons, List.nodup_cons] at hnd
    have step : mapSetAll m ((k₀, v₀) :: tl) = mapSetAll (mapSet m k₀ v₀) tl := rfl
    rw [step, ih _ hnd.2]
    by_cases hk : k = k₀
    · subst hk
      have : mapGet tl k = none := mapGet_eq_none_of_not_mem tl k hnd.1
      simp [mapGet, this, mapGet_mapSet_self]
    · simp only [mapGet, if_neg hk]
      cases htl : mapGet tl k with
      | none => simp [mapGet_mapSet_other m k₀ k v₀ hk]
      | some w => simp

/-! ## Decimal rendering and parsing (`*big.Int` → `String()`)

`big.Int.String` renders the exact decimal value: an optional minus
sign followed by the base-10 digits, `"0"` for zero.  The parser below
is the specification-side inverse (the claim's "parsing the decimal
string back"). -/

/-- One decimal digit as a character, `0 ↦ '0'`, …, `9 ↦ '9'`. -/
def decDigitChar (d : Nat) : Char := Char.ofNat (48 + d)

/-- Decimal rendering of a natural number, most significant digit
first; models the digit part of `big.Int.String`. -/
def natDecChars (n : Nat) : List Char :=
  if n = 0 then ['0'] else ((Nat.digits 10 n).map decDigitChar).reverse

/-- Decimal rendering of an integer; models `big.Int.String`. -/
def intDecChars (x : Int) : List Char :=
  if x < 0 then '-' :: natDecChars x.natAbs else natDecChars x.natAbs

/-- Specification-side digit reader. -/
def parseDecDigit (c : Char) : Option Nat :=
  if 48 ≤ c.toNat ∧ c.toNat ≤ 57 then some (c.toNat - 48) else none

/-- Specification-side accumulator loop of the decimal parser. -/
def parseNatGo (acc : Nat) : List Char → Option Nat
  | [] => some acc
  | c :: rest =>
    match parseDecDigit c with
    | none => none
    | some d => parseNatGo (acc * 10 + d) rest

/-- Specification-side parser for an unsigned decimal numeral; fails on
the empty string or a non-digit. -/
def parseNatChars (cs : List Char) : Option Nat :=
  match cs with
  | [] => none
  | _ => parseNatGo 0 cs

/-- Specification-side parser for a signed decimal numeral. -/
def parseIntChars (cs : List Char) : Option Int :=
  if cs.head? = some '-' then (parseNatChars cs.tail).map (fun n : Nat => -(n : Int))
  else (parseNatChars cs).map (fun n : Nat => (n : Int))

example : parseIntChars ['-', '2', '5', '5'] = some (-255) := by decide
example : intDecChars 0 = ['0'] := by decide

theorem parseDecDigit_decDigitChar (d : Nat) (h : d < 10) :
    parseDecDigit (decDigitChar d) = some d := by
  interval_cases d <;> decide

theorem decDigitChar_ne_minus (d : Nat) (h : d < 10) : decDigitChar d ≠ '-' := by
  interval_cases d <;> decide

theorem parseNatGo_digits (ds : List Nat) :
    ∀ acc, (∀ d ∈ ds, d < 10) →
      parseNatGo acc (ds.map decDigitChar) =
        some (ds.foldl (fun a d => a * 10 + d) acc) := by
  induction ds with
  | nil => intro acc _; rfl
  | cons d rest ih =>
    intro acc h
    have hd : d < 10 := h d (List.mem_cons_self d rest)
    have hrest : ∀ e ∈ rest, e < 10 := fun e he => h e (List.mem_cons_of_mem d he)
    simp only [List.map_cons, parseNatGo, parseDecDigit_decDigitChar d hd]
    exact ih (acc * 10 + d) hrest

theorem foldr_eq_ofDigits (L : List Nat) :
    L.foldr (fun d a => a * 10 + d) 0 = Nat.ofDigits 10 L := by
  induction L with
  | nil => simp [Nat.ofDigits_nil]
  | cons d rest ih =>
    simp only [List.foldr_cons, ih, Nat.ofDigits_cons]
    ring

theorem parseNatChars_natDecChars (n : Nat) :
    parseNatChars (natDecChars n) = some n := by
  by_cases h0 : n = 0
  · subst h0; decide
  · have hne : Nat.digits 10 n ≠ [] := Nat.digits_ne_nil_iff_ne_zero.mpr h0
    have hlt : ∀ d ∈ (Nat.digits 10 n).reverse, d < 10 := by
      intro d hd
      exact Nat.digits_lt_base (by norm_num) (List.mem_reverse.mp hd)
    have hmap : natDecChars n = ((Nat.digits 10 n).reverse).map decDigitChar := by
      rw [natDecChars, if_neg h0, List.map_reverse]
    have hval : ((Nat.digits 10 n).reverse).foldl (fun a d => a * 10 + d) 0 = n := by
      rw [List.foldl_reverse]
      simpa using (foldr_eq_ofDigits (Nat.digits 10 n)).trans (Nat.ofDigits_digits 10 n)
    have hgo := parseNatGo_digits ((Nat.digits 10 n).reverse) 0 hlt
    rw [hval] at hgo
    rw [hmap]
    obtain ⟨d, ds, hds⟩ : ∃ d ds, (Nat.digits 10 n).reverse = d :: ds := by
      cases hrev : (Nat.digits 10 n).reverse with
      | nil => exact absurd (List.reverse_eq_nil_iff.mp hrev) hne
      | cons d ds => exact ⟨d, ds, rfl⟩
    rw [hds] at hgo ⊢
    simpa [parseNatChars] using hgo

theorem natDecChars_all_digits (n : Nat) :
    ∀ c ∈ natDecChars n, ∃ d, d < 10 ∧ c = decDigitChar d := by
  intro c hc
  by_cases h0 : n = 0
  · subst h0
    simp only [natDecChars, if_pos rfl, List.mem_singleton] at hc
    exact ⟨0, by norm_num, by simpa [decDigitChar] using hc⟩
  · rw [natDecChars, if_neg h0, List.mem_reverse, List.mem_map] at hc
    obtain ⟨d, hd, hcd⟩ := hc
    exact ⟨d, Nat.digits_lt_base (by norm_num) hd, hcd.symm⟩

theorem natDecChars_head_ne_minus (n : Nat) :
    (natDecChars n).head? ≠ some '-' := by
  intro h
  cases hl : natDecChars n with
  | nil => rw [hl] at h; simp at h
  | cons c cs =>
    rw [hl] at h
    simp only [List.head?_cons, Option.some.injEq] at h
    obtain ⟨d, hd, hcd⟩ := natDecChars_all_digits n c (hl ▸ List.mem_cons_self c cs)
    exact decDigitChar_ne_minus d hd (hcd ▸ h)

/-- Round trip for the decimal rendering of `*big.Int` values: parsing
the rendered numeral recovers the integer exactly. -/
theorem parseIntChars_intDecChars (x : Int) :
    parseIntChars (intDecChars x) = some x := by
  by_cases hx : x < 0
  · rw [intDecChars, if_pos hx, parseIntChars,
      if_pos (show ('-' :: natDecChars x.natAbs).head? = some '-' from rfl),
      List.tail_cons, parseNatChars_natDecChars, Option.map_some']
    congr 1
    omega
  · rw [intDecChars, if_neg hx, parseIntChars,
      if_neg (natDecChars_head_ne_minus x.natAbs), parseNatChars_natDecChars,
      Option.map_some']
    congr 1
    omega

/-! ## Hex encoding of byte slices (`hexutil.Encode`, `common.Hex2Bytes`)

Transaction data is a byte slice; `hexutil.Encode` renders it as
`"0x"` followed by two lowercase hex characters per byte, and
`common.Hex2Bytes` / `common.FromHex` invert that on valid input.
Bytes are `Nat` values below 256. -/

/-- One hex digit as a lowercase character. -/
def hexDigitChar (n : Nat) : Char :=
  if n < 10 then Char.ofNat (48 + n) else Char.ofNat (87 + n)

/-- The hex characters of a byte slice, two per byte. -/
def bytesToHexChars : List Nat → List Char
  | [] => []
  | b :: rest => hexDigitChar (b / 16 % 16) :: hexDigitChar (b % 16) :: bytesToHexChars rest

/-- `hexutil.Encode`: `"0x"` plus the hex characters. -/
def hexEncode (bs : List Nat) : List Char :=
  '0' :: 'x' :: bytesToHexChars bs

/-- Value of one hex character (`0-9`, `a-f`); other characters cannot
arise from `hexEncode` output. -/
def hexCharVal (c : Char) : Nat :=
  if 48 ≤ c.toNat ∧ c.toNat ≤ 57 then c.toNat - 48
  else if 97 ≤ c.toNat ∧ c.toNat ≤ 102 then c.toNat - 87
  else 0

/-- `common.Hex2Bytes` on an even-length hex string: two characters per
byte; a trailing odd character is dropped, as `hex.Decode` stops there. -/
def hexToBytes : List Char → List Nat
  | [] => []
  | [_] => []
  | c1 :: c2 :: rest => (hexCharVal c1 * 16 + hexCharVal c2) :: hexToBytes rest

theorem hexCharVal_hexDigitChar (d : Nat) (h : d < 16) :
    hexCharVal (hexDigitChar d) = d := by
  interval_cases d <;> decide

theorem hexToBytes_bytesToHexChars (bs : List Nat) (h : ∀ b ∈ bs, b < 256) :
    hexToBytes (bytesToHexChars bs) = bs := by
  induction bs with
  | nil => rfl
  | cons b rest ih =>
    have hb : b < 256 := h b (List.mem_cons_self b rest)
    have hrest : ∀ e ∈ rest, e < 256 := fun e he => h e (List.mem_cons_of_mem b he)
    have h1 : b / 16 % 16 < 16 := Nat.mod_lt _ (by norm_num)
    have h2 : b % 16 < 16 := Nat.mod_lt _ (by norm_num)
    simp only [bytesToHexChars, hexToBytes, hexCharVal_hexDigitChar _ h1,
      hexCharVal_hexDigitChar _ h2, ih hrest]
    congr 1
    omega

theorem bytesToHexChars_take (n : Nat) (bs : List Nat) :
    (bytesToHexChars bs).take (2 * n) = bytesToHexChars (bs.take n) := by
  induction n generalizing bs with
  | zero => simp [bytesToHexChars]
  | succ m ih =>
    cases bs with
    | nil => simp [bytesToHexChars]
    | cons b rest =>
      have : 2 * (m + 1) = (2 * m) + 1 + 1 := by ring
      simp only [bytesToHexChars, this, List.take_succ_cons, ih]

theorem bytesToHexChars_drop (n : Nat) (bs : List Nat) :
    (bytesToHexChars bs).drop (2 * n) = bytesToHexChars (bs.drop n) := by
  induction n generalizing bs with
  | zero => simp
  | succ m ih =>
    cases bs with
    | nil => simp [bytesToHexChars]
    | cons b rest =>
      have : 2 * (m + 1) = (2 * m) + 1 + 1 := by ring
      simp only [bytesToHexChars, this, List.drop_succ_cons, ih]

/-! ## The value model and the parameter normalizer (`formatParameters`)

Decoded argument values (`interface{}` in Go) are a closed variant
here.  `Address` stands for `common.Address`; its checksum rendering
`Hex()` is external `go-ethereum` code and is carried as plain data.
The external checksum helpers used by the `string` branch of
`formatParameters` (`common.IsHexAddress`, `common.HexToAddress(...).Hex()`)
are parameters collected in `GethEnv`. -/

structure Address where
  hex : String
deriving DecidableEq

/-- The shapes of decoded argument values that `formatParameters`
dispatches on; `other` covers every unhandled dynamic type (the `default`
case of the Go type switch). -/
inductive GoValue where
  | bigInt (x : Int)
  | address (a : Address)
  | str (s : String)
  | boolean (b : Bool)
  | byte (n : Nat)
  | bytes (bs : List Nat)
  | bytesList (bss : List (List Nat))
  | bigIntList (xs : List Int)
  | addressList (as : List Address)
  | hash32 (ws : List Nat)
  | strList (ss : List String)
  | other
deriving DecidableEq

/-- External `go-ethereum` helpers used by the normalizer's string
branch. -/
structure GethEnv where
  isHexAddress : String → Bool
  checksumHex : String → String

/-- The outcome of a Go function that may call `log.Fatal`: `error ()`
models process termination. -/
abbrev FatalOr (α : Type) := Except Unit α

/-- One arm of the type switch in `formatParameters`
(src/unnamed/part_003, lines 514-580).  When `debug` is set, the
`default` arm calls `log.Fatal`. -/
def formatValue (env : GethEnv) (debug : Option Bool) : GoValue → FatalOr GoValue
  | .bigInt x => .ok (.str ⟨intDecChars x⟩)
  | .address a => .ok (.str a.hex)
  | .bytesList bss =>
    .ok (.strList (bss.map (fun arr => "0x" ++ String.mk (bytesToHexChars arr))))
  | .bigIntList xs => .ok (.strList (xs.map (fun v => String.mk (intDecChars v))))
  | .addressList addrs => .ok (.strList (addrs.map Address.hex))
  | .bytes bs => .ok (.str ("0x" ++ String.mk (bytesToHexChars bs)))
  | .str s =>
    if s != EtherAddress && env.isHexAddress s then .ok (.str (env.checksumHex s))
    else .ok (.str s)
  | .boolean b => .ok (.boolean b)
  | .byte n => .ok (.byte n)
  | .hash32 ws => .ok (.str ("0x" ++ String.mk (bytesToHexChars ws)))
  | .strList ss => if debug == some true then .error () else .ok (.strList ss)
  | .other => if debug == some true then .error () else .ok .other

/-- `formatParameters`: iterate over the parameter map, replacing each
value by its normalized form.  The Go loop also logs fatally after every
iteration when `debug` is set, so a set debug flag terminates on any
nonempty map; iteration order of the Go map is unspecified and the model
uses list order. -/
def formatParameters (env : GethEnv) (decoded : List (String × GoValue))
    (debug : Option Bool) : FatalOr (List (String × GoValue)) :=
  match decoded with
  | [] => .ok []
  | (key, value) :: rest =>
    match formatValue env debug value with
    | .error e => .error e
    | .ok v2 =>
      if debug == some true then .error ()
      else
        match formatParameters env rest debug with
        | .error e => .error e
        | .ok rest2 => .ok ((key, v2) :: rest2)

/-- The pure value computed by `formatValue` when no fatal branch is
taken (proof-side helper). -/
def formatValueOk (env : GethEnv) (v : GoValue) : GoValue :=
  match formatValue env none v with
  | .ok v2 => v2
  | .error _ => v

theorem formatValue_none_eq (env : GethEnv) (v : GoValue) :
    formatValue env none v = .ok (formatValueOk env v) := by
  cases v <;>
    first
      | rfl
      | (simp only [formatValue, formatValueOk]; split <;> rfl)

theorem formatParameters_none_eq (env : GethEnv) (ps : List (String × GoValue)) :
    formatParameters env ps none = .ok (ps.map (fun p => (p.1, formatValueOk env p.2))) := by
  induction ps with
  | nil => rfl
  | cons hd tl ih =>
    obtain ⟨k, v⟩ := hd
    simp [formatParameters, formatValue_none_eq, ih]

/-! ## Interface definitions and the registry (`abi.ABI`, `MergeABIs`)

`abi.Method` carries its name, canonical signature, 4-byte selector
(`ID`) and an argument unpacker; the unpacker
(`method.Inputs.UnpackIntoMap`) is external `go-ethereum` code and is
carried as a function field.  `abi.ABI` keys methods and events by
declared name, as the Go maps do. -/

structure Method where
  name : String
  sig : String
  id : List Nat
  unpackInputs : List Nat → Option (List (String × GoValue))

structure Event where
  name : String
  sig : String
  id : List Nat

structure ABI where
  methods : List (String × Method)
  events : List (String × Event)

/-- `MergeABIs` from `utils.go`: starting from an empty definition,
write every method and event of each input into the accumulated maps,
keyed by name, so a later definition's entry overwrites an earlier
one.  The Go function receives JSON strings and parses each with the
external `abi.JSON` before merging; the model takes the parsed
definitions. -/
def MergeABIs (jsonAbis : List ABI) : ABI :=
  jsonAbis.foldl
    (fun mergedABI contractAbi =>
      { methods := mapSetAll mergedABI.methods contractAbi.methods
        events := mapSetAll mergedABI.events contractAbi.events })
    { methods := [], events := [] }

/-- `abi.ABI.MethodById` (external `go-ethereum`): reject data shorter
than 4 bytes, otherwise scan the method table for a matching 4-byte
selector. -/
def MethodById (contractAbi : ABI) (sigdata : List Nat) : Option Method :=
  if sigdata.length < 4 then none
  else (contractAbi.methods.find? (fun kv => kv.2.id.take 4 == sigdata.take 4)).map Prod.snd

/-- Unpacker of a method with no arguments: `Arguments.UnpackIntoMap`
succeeds with an empty map whatever payload is supplied. -/
def unpackNoArgs : List Nat → Option (List (String × GoValue)) := fun _ => some []

/-- Unpacker of a method with one static `address` argument: the
payload must supply the full 32-byte word, whose last 20 bytes are the
address (checksum casing of the rendering is abstracted). -/
def unpackSingleAddress (argName : String) (bs : List Nat) :
    Option (List (String × GoValue)) :=
  if bs.length < 32 then none
  else some [(argName, GoValue.address ⟨"0x" ++ String.mk (bytesToHexChars ((bs.take 32).drop 12))⟩)]

/-! ## The decode engine (`parseMethod`) -/

/-- The part of `types.Transaction` that `parseMethod` reads:
`tx.Data()` (raw bytes), `tx.To()` (`nil` for contract creation) and
the opaque rendering of `tx.Hash()`. -/
structure Transaction where
  data : List Nat
  toAddr : Option Address
  hash : String

structure DecodedMethod where
  transactionHash : String
  contract : String
  sigHash : String
  signature : String
  params : List (String × GoValue)
deriving DecidableEq

/-- Outcome of a Go function returning a pointer that may also call
`log.Fatal`: `fatal` models process termination, `nil` the nil
pointer. -/
inductive GoResult (α : Type) where
  | fatal
  | nil
  | ok (a : α)
deriving DecidableEq

/-- `parseMethod` from `src/unnamed/part_003` (lines 349-418): guard on
`len(string(tx.Data())) < 10` — a count of raw bytes — then split the
hex encoding of the data into selector and argument halves, resolve the
method by selector, unpack, resolve the contract address (zero address
with an optional fatal debug log when `to` is nil), and normalize the
parameters. -/
def parseMethod (tx : Transaction) (contractAbi : ABI) (env : GethEnv)
    (debug : Option Bool) : GoResult DecodedMethod :=
  if tx.data.length < 10 then .nil
  else
    let txData : List Char := hexEncode tx.data
    let inputData : List Char := txData.drop 10
    let sigHash : List Char := (txData.drop 2).take 8
    let signatureBytes : List Nat := hexToBytes sigHash
    let inputBytes : List Nat := hexToBytes inputData
    match MethodById contractAbi signatureBytes with
    | none => .nil
    | some method =>
      match method.unpackInputs inputBytes with
      | none => .fatal
      | some params =>
        let mkResult : String → GoResult DecodedMethod := fun contract =>
          match formatParameters env params debug with
          | .error _ => .fatal
          | .ok params2 =>
            .ok { transactionHash := tx.hash, contract := contract,
                  sigHash := "0x" ++ String.mk sigHash,
                  signature := method.sig, params := params2 }
        match tx.toAddr with
        | some a => mkResult a.hex
        | none => if debug == some true then .fatal else mkResult EtherAddress

/-! ## The token metadata store (`tokens.go`) -/

structure ITknInfo where
  address : Address
  isERC20 : Bool
  isERC721 : Bool
  isERC1155 : Bool
  name : String
  symbol : String
  decimals : Nat
  meta : String
deriving DecidableEq

/-- The `data` map of `ITknStore`; the chain client and node URL are
external collaborators and do not appear in the state. -/
structure ITknStore where
  data : List (Address × ITknInfo)
deriving DecidableEq

/-- `HasTknInfo`: `store.data[address] != nil`. -/
def HasTknInfo (store : ITknStore) (address : Address) : Bool :=
  (mapGet store.data address).isSome

/-- `SetTknInfo`: `store.data[nfo.Address] = nfo`. -/
def SetTknInfo (store : ITknStore) (nfo : ITknInfo) : ITknStore :=
  ⟨mapSet store.data nfo.address nfo⟩

/-- `GetTknInfo` from `tokens.go` (lines 80-93 and 513-526): return the
cached entry when present, otherwise resolve via `queryTokenInfo`
(the external chain-client path) and return the fresh entry.  The Go
function never writes `store.data`, which the model makes explicit by
returning the store alongside the result; the always-`nil` error result
is omitted. -/
def GetTknInfo (store : ITknStore) (queryTokenInfo : Address → ITknInfo)
    (address : Address) : ITknInfo × ITknStore :=
  match mapGet store.data address with
  | some nfo => (nfo, store)
  | none => (queryTokenInfo address, store)

/-! ## Lemmas about the matcher scan -/

theorem scanSigs_cons_pos (code : String) (rest : List String) (rem : String) (f : Nat)
    (h : strContains rem (strTrim0x code) = true) :
    Utils.scanSigs (code :: rest) rem f =
      Utils.scanSigs rest (strDropFirst rem (strTrim0x code)) (f + 1) := by
  simp [Utils.scanSigs, h]

theorem scanSigs_cons_neg (code : String) (rest : List String) (rem : String) (f : Nat)
    (h : strContains rem (strTrim0x code) = false) :
    Utils.scanSigs (code :: rest) rem f = Utils.scanSigs rest rem f := by
  simp [Utils.scanSigs, h]

theorem scanAll_cons (code : String) (rest : List String) (rem : String) :
    Utils.scanAll (code :: rest) rem =
      (strContains rem (strTrim0x code) &&
        Utils.scanAll rest (strDropFirst rem (strTrim0x code))) := rfl

theorem scanSigs_fst_eq (l : List String) :
    ∀ rem f, (Utils.scanSigs l rem f).1 = f + (Utils.scanSigs l rem 0).1 := by
  induction l with
  | nil => intro rem f; simp [Utils.scanSigs]
  | cons code rest ih =>
    intro rem f
    cases h : strContains rem (strTrim0x code) with
    | true =>
      rw [scanSigs_cons_pos code rest rem f h, scanSigs_cons_pos code rest rem 0 h]
      rw [ih _ (f + 1), ih _ (0 + 1)]
      omega
    | false =>
      rw [scanSigs_cons_neg code rest rem f h, scanSigs_cons_neg code rest rem 0 h]
      exact ih rem f

theorem scanSigs_fst_le (l : List String) :
    ∀ rem, (Utils.scanSigs l rem 0).1 ≤ l.length := by
  induction l with
  | nil => intro rem; simp [Utils.scanSigs]
  | cons code rest ih =>
    intro rem
    cases h : strContains rem (strTrim0x code) with
    | true =>
      rw [scanSigs_cons_pos code rest rem 0 h, scanSigs_fst_eq rest _ 1]
      have := ih (strDropFirst rem (strTrim0x code))
      simp only [List.length_cons]
      omega
    | false =>
      rw [scanSigs_cons_neg code rest rem 0 h]
      have := ih rem
      simp only [List.length_cons]
      omega

theorem scanSigs_all_iff (l : List String) :
    ∀ rem, (Utils.scanSigs l rem 0).1 = l.length ↔ Utils.scanAll l rem = true := by
  induction l with
  | nil => intro rem; simp [Utils.scanSigs, Utils.scanAll]
  | cons code rest ih =>
    intro rem
    cases h : strContains rem (strTrim0x code) with
    | true =>
      rw [scanSigs_cons_pos code rest rem 0 h, scanAll_cons, h,
        scanSigs_fst_eq rest _ 1, Bool.true_and,
        ← ih (strDropFirst rem (strTrim0x code))]
      simp only [List.length_cons]
      omega
    | false =>
      rw [scanSigs_cons_neg code rest rem 0 h, scanAll_cons, h, Bool.false_and]
      have := scanSigs_fst_le rest rem
      simp only [List.length_cons]
      constructor
      · intro hc; omega
      · intro hc; exact absurd hc (by simp)

theorem scanSigs_none (l : List String) :
    ∀ b : String, (∀ s ∈ l, strContains b (strTrim0x s) = false) →
      Utils.scanSigs l b 0 = (0, b) := by
  induction l with
  | nil => intro b _; rfl
  | cons code rest ih =>
    intro b h
    have hc : strContains b (strTrim0x code) = false :=
      h code (List.mem_cons_self code rest)
    simp only [Utils.scanSigs, hc, Bool.false_eq_true, if_false]
    exact ih b (fun s hs => h s (List.mem_cons_of_mem code hs))

/-- C1.  `DetectBytecodes` is the greedy consuming scan over the
fragments sorted ascending by length: it returns true iff every
fragment in that order occurs in the working copy at its turn (one
first-occurrence being removed per match); and when every fragment is
absent from the bytecode (and at least one fragment is required) it
returns false.  The original claim's stronger reading — false whenever
any single fragment is absent — fails, because removing a matched
fragment splices the surrounding characters together and can create an
occurrence of a later fragment that the original bytecode never
contained (see the counterexample). -/
theorem detectBytecodes_spec (bytecode : String) (signatures : List String) :
    (Utils.DetectBytecodes bytecode signatures = true ↔
      Utils.scanAll (List.insertionSort strLenLE signatures) bytecode = true)
    ∧ (signatures ≠ [] →
        (∀ s ∈ signatures, strContains bytecode (strTrim0x s) = false) →
        Utils.DetectBytecodes bytecode signatures = false) := by
  constructor
  · rw [Utils.DetectBytecodes, Utils.DetectBytecodesFull]
    simp only [beq_iff_eq]
    exact scanSigs_all_iff (List.insertionSort strLenLE signatures) bytecode
  · intro hne habs
    rw [Utils.DetectBytecodes, Utils.DetectBytecodesFull]
    simp only
    have hperm := List.perm_insertionSort strLenLE signatures
    have habs' : ∀ s ∈ List.insertionSort strLenLE signatures,
        strContains bytecode (strTrim0x s) = false :=
      fun s hs => habs s (hperm.mem_iff.mp hs)
    rw [scanSigs_none _ _ habs']
    have hlen : (List.insertionSort strLenLE signatures).length = signatures.length :=
      hperm.length_eq
    have hlen0 : signatures.length ≠ 0 := fun h => hne (List.length_eq_zero.mp h)
    refine beq_eq_false_iff_ne.mpr ?_
    show (0 : Nat) ≠ (List.insertionSort strLenLE signatures).length
    rw [hlen]
    omega

/-- Witness for C1: with the single fragment `"ab"` absent from the
bytecode `"zz"`, the matcher reports false. -/
theorem detectBytecodes_spec_witness :
    Utils.DetectBytecodes "zz" ["ab"] = false :=
  (detectBytecodes_spec "zz" ["ab"]).2 (by decide) (by decide)

/-- Counterexample for C1 as frozen: the fragment `"ab"` is entirely
absent from the bytecode `"acb"`, yet `DetectBytecodes` returns true —
removing the earlier match `"c"` splices `"a"` and `"b"` together. -/
theorem detectBytecodes_absent_fragment_cex :
    Utils.DetectBytecodes "acb" ["c", "ab"] = true
    ∧ strContains "acb" "ab" = false := by
  exact ⟨by decide, by decide⟩

/-- C9.  `DetectBytecodes` sorts the caller's `signatures` slice in
place before scanning: the slice after the call (second component of
`DetectBytecodesFull`) is a permutation of the input that is sorted
ascending by string length.  The `bytecode` argument is a Go string and
strings are immutable; only the local working copy is consumed.  (Go's
`sort.Slice` is unstable, so among equal-length fragments the concrete
permutation may differ from the stable one the model fixes; the claim
only requires some length-sorted permutation.) -/
theorem detectBytecodes_sorts_signatures (bytecode : String) (signatures : List String) :
    (Utils.DetectBytecodesFull bytecode signatures).2.Perm signatures
    ∧ List.Sorted strLenLE (Utils.DetectBytecodesFull bytecode signatures).2 :=
  ⟨List.perm_insertionSort strLenLE signatures,
    List.sorted_insertionSort strLenLE signatures⟩

/-- C3 counterexample (negation of the frozen claim): in both the
`utils.go` and the `helpers.go` revisions, no bytecode makes `IsERC20`
and `IsERC721` disagree — the two predicates are defined by the same
expression. -/
theorem isERC20_isERC721_no_distinguishing_input :
    ¬ ∃ bytecode : String,
        Utils.IsERC20 bytecode ≠ Utils.IsERC721 bytecode ∨
        Helpers.IsERC20 bytecode ≠ Helpers.IsERC721 bytecode :=
  fun ⟨_, h⟩ => h.elim (fun h' => h' rfl) (fun h' => h' rfl)

/-- C3 as amended: `IsERC20` and `IsERC721` are driven by the identical
fragment condition (`IsToken` plus fragment `6352211e`) in both
revisions, hence extensionally equal. -/
theorem isERC20_eq_isERC721 :
    (∀ bytecode, Utils.IsERC20 bytecode = Utils.IsERC721 bytecode)
    ∧ (∀ bytecode, Helpers.IsERC20 bytecode = Helpers.IsERC721 bytecode) :=
  ⟨fun _ => rfl, fun _ => rfl⟩

/-- A bytecode containing the Transfer-event fragment and `6352211e`:
by the claim (and by the `helpers.go` revision) it is a token and
classifies as ERC721. -/
def tokenBugInput : String :=
  "ddf252ad1be2c89b69c2b068fc378daa952ba7f163c4a11628f55a4df523b3ef6352211e"

/-- C2.  Evaluation at the failing input: `helpers.go`'s `IsToken`
returns true as the claim demands, but `utils.go`'s `IsToken` — which
passes the constant `TransferTopic[2:]` instead of its `bytecode`
parameter to `DetectBytecodes` — returns false, and
`DetectTokenStandard` consequently answers `"UNKNOWN"` instead of
`"ERC721"`. -/
theorem isToken_bytecode_ignored_bug :
    Helpers.IsToken tokenBugInput = true
    ∧ Utils.IsToken tokenBugInput = false
    ∧ Utils.DetectTokenStandard tokenBugInput = "UNKNOWN" :=
  ⟨by decide, by decide, by decide⟩

/-! ## Merging lemmas and the C6, C7, C8 theorems -/

theorem mapGet_mapSetAll_nil {κ α : Type} [DecidableEq κ] (entries : List (κ × α)) (k : κ)
    (hnd : (entries.map Prod.fst).Nodup) :
    mapGet (mapSetAll ([] : List (κ × α)) entries) k = mapGet entries k := by
  rw [mapGet_mapSetAll _ _ _ hnd]
  cases h : mapGet entries k <;> rfl

/-- C6.  `MergeABIs` unions the name-keyed method and event tables with
later definitions overwriting earlier ones: any name present in `B`
keeps `B`'s entry in `MergeABIs [A, B]` (whatever the selectors or
topics of the colliding entries are), and a name absent from `B` keeps
`A`'s entry unchanged.  The `Nodup` hypotheses state that each input's
table is a genuine map, one entry per name, as Go maps guarantee. -/
theorem mergeABIs_last_wins (A B : ABI) (name : String)
    (hA : (A.methods.map Prod.fst).Nodup) (hB : (B.methods.map Prod.fst).Nodup)
    (hAe : (A.events.map Prod.fst).Nodup) (hBe : (B.events.map Prod.fst).Nodup) :
    (∀ m : Method, mapGet B.methods name = some m →
        mapGet (MergeABIs [A, B]).methods name = some m)
    ∧ (mapGet B.methods name = none →
        mapGet (MergeABIs [A, B]).methods name = mapGet A.methods name)
    ∧ (∀ e : Event, mapGet B.events name = some e →
        mapGet (MergeABIs [A, B]).events name = some e)
    ∧ (mapGet B.events name = none →
        mapGet (MergeABIs [A, B]).events name = mapGet A.events name) := by
  refine ⟨?_, ?_, ?_, ?_⟩
  · intro m hm
    have h1 := mapGet_mapSetAll (mapSetAll ([] : List (String × Method)) A.methods)
      B.methods name hB
    rw [hm] at h1
    exact h1
  · intro hm
    have h1 := mapGet_mapSetAll (mapSetAll ([] : List (String × Method)) A.methods)
      B.methods name hB
    rw [hm] at h1
    exact h1.trans (mapGet_mapSetAll_nil A.methods name hA)
  · intro e he
    have h1 := mapGet_mapSetAll (mapSetAll ([] : List (String × Event)) A.events)
      B.events name hBe
    rw [he] at h1
    exact h1
  · intro he
    have h1 := mapGet_mapSetAll (mapSetAll ([] : List (String × Event)) A.events)
      B.events name hBe
    rw [he] at h1
    exact h1.trans (mapGet_mapSetAll_nil A.events name hAe)

/-- Two versions of a `transfer` method with distinct selectors, plus a
method existing only in the first definition, for the C6 witness. -/
def methodTransferV1 : Method :=
  { name := "transfer", sig := "transfer(address,uint256)",
    id := [169, 5, 156, 187], unpackInputs := unpackNoArgs }

def methodTransferV2 : Method :=
  { name := "transfer", sig := "transfer(address)",
    id := [26, 105, 82, 48], unpackInputs := unpackNoArgs }

def methodApprove : Method :=
  { name := "approve", sig := "approve(address,uint256)",
    id := [9, 94, 167, 179], unpackInputs := unpackNoArgs }

def abiW1 : ABI :=
  { methods := [("transfer", methodTransferV1), ("approve", methodApprove)], events := [] }

def abiW2 : ABI :=
  { methods := [("transfer", methodTransferV2)], events := [] }

/-- Witness for C6: merging two definitions that both declare
`transfer` (with different selectors) keeps the later one's entry, and
the name `approve`, present only in the first, is preserved. -/
theorem mergeABIs_last_wins_witness :
    mapGet (MergeABIs [abiW1, abiW2]).methods "transfer" = some methodTransferV2
    ∧ mapGet (MergeABIs [abiW1, abiW2]).methods "approve" = mapGet abiW1.methods "approve" :=
  ⟨(mergeABIs_last_wins abiW1 abiW2 "transfer"
      (by decide) (by decide) (by decide) (by decide)).1 methodTransferV2 rfl,
    (mergeABIs_last_wins abiW1 abiW2 "approve"
      (by decide) (by decide) (by decide) (by decide)).2.1 rfl⟩

/-- C7.  The normalizer renders every `*big.Int` argument as its exact
decimal string (`value.String()`), and parsing that string back yields
the original integer — for any magnitude, and elementwise for
`[]*big.Int` values as well. -/
theorem formatParameters_bigInt_roundtrip (env : GethEnv)
    (ps : List (String × GoValue)) (k : String) (x : Int) (xs : List Int)
    (hx : (k, GoValue.bigInt x) ∈ ps) :
    (∃ out, formatParameters env ps none = Except.ok out ∧
        (k, GoValue.str ⟨intDecChars x⟩) ∈ out)
    ∧ parseIntChars (intDecChars x) = some x
    ∧ formatValueOk env (GoValue.bigIntList xs) =
        GoValue.strList (xs.map (fun v => String.mk (intDecChars v)))
    ∧ xs.map (fun v => parseIntChars (intDecChars v)) = xs.map (fun v => some v) := by
  refine ⟨?_, parseIntChars_intDecChars x, rfl, ?_⟩
  · refine ⟨ps.map (fun p => (p.1, formatValueOk env p.2)),
      formatParameters_none_eq env ps, ?_⟩
    have := List.mem_map_of_mem (fun p : String × GoValue => (p.1, formatValueOk env p.2)) hx
    exact this
  · simp [parseIntChars_intDecChars]

/-- Concrete external environment for witnesses: no string is
recognized as an address. -/
def envW : GethEnv := { isHexAddress := fun _ => false, checksumHex := fun s => s }

/-- Witness for C7 at `x = 10^18` (beyond 53-bit float precision) and a
two-element integer list. -/
theorem formatParameters_bigInt_roundtrip_witness :
    (∃ out, formatParameters envW
        [("value", GoValue.bigInt 1000000000000000000)] none = Except.ok out ∧
        ("value", GoValue.str ⟨intDecChars 1000000000000000000⟩) ∈ out)
    ∧ parseIntChars (intDecChars 1000000000000000000) = some 1000000000000000000
    ∧ formatValueOk envW (GoValue.bigIntList [-7, 22]) =
        GoValue.strList ([-7, 22].map (fun v => String.mk (intDecChars v)))
    ∧ ([-7, 22] : List Int).map (fun v => parseIntChars (intDecChars v)) =
        [-7, 22].map (fun v => some v) :=
  formatParameters_bigInt_roundtrip envW
    [("value", GoValue.bigInt 1000000000000000000)] "value" 1000000000000000000
    [-7, 22] (by decide)

/-- Address and resolver used by the C8 statements: the resolver stands
for the chain-client path `queryTokenInfo`. -/
def tknAddr0 : Address := ⟨"0x1111111111111111111111111111111111111111"⟩

def tknResolve0 : Address → ITknInfo := fun a =>
  { address := a, isERC20 := true, isERC721 := false, isERC1155 := false,
    name := "Token", symbol := "TKN", decimals := 18, meta := "{}" }

/-- C8 counterexample: after a `GetTknInfo` miss that resolves
successfully, the store is unchanged — `HasTknInfo` is still false and
a second `GetTknInfo` resolves again instead of returning a cached
entry, contradicting the claim that the entry is stored. -/
theorem getTknInfo_not_cached_cex :
    (GetTknInfo ⟨[]⟩ tknResolve0 tknAddr0).2 = (⟨[]⟩ : ITknStore)
    ∧ HasTknInfo (GetTknInfo ⟨[]⟩ tknResolve0 tknAddr0).2 tknAddr0 = false
    ∧ (GetTknInfo (GetTknInfo ⟨[]⟩ tknResolve0 tknAddr0).2 tknResolve0 tknAddr0).1 =
        tknResolve0 tknAddr0 :=
  ⟨rfl, rfl, rfl⟩

/-- C8 as amended.  `GetTknInfo` returns the cached entry when the
address is present and otherwise resolves a fresh entry via the chain
client and returns it without storing it: the store is never changed by
`GetTknInfo`, so a later `HasTknInfo` still fails and a second call
re-resolves; entries enter the cache only through `SetTknInfo`. -/
theorem getTknInfo_spec (store : ITknStore) (queryTokenInfo : Address → ITknInfo)
    (address : Address) :
    (GetTknInfo store queryTokenInfo address).2 = store
    ∧ (HasTknInfo store address = false →
        (GetTknInfo store queryTokenInfo address).1 = queryTokenInfo address)
    ∧ (∀ nfo, mapGet store.data address = some nfo →
        (GetTknInfo store queryTokenInfo address).1 = nfo)
    ∧ (∀ nfo, HasTknInfo (SetTknInfo store nfo) nfo.address = true) := by
  refine ⟨?_, ?_, ?_, ?_⟩
  · unfold GetTknInfo
    cases mapGet store.data address <;> rfl
  · intro h
    unfold GetTknInfo
    cases hm : mapGet store.data address with
    | none => rfl
    | some nfo =>
      rw [HasTknInfo, hm] at h
      simp at h
  · intro nfo hm
    unfold GetTknInfo
    rw [hm]
  · intro nfo
    rw [HasTknInfo, SetTknInfo]
    simp [mapGet_mapSet_self]

/-- Witness for C8: at the empty store the miss path returns the
resolver's entry. -/
theorem getTknInfo_spec_witness :
    (GetTknInfo ⟨[]⟩ tknResolve0 tknAddr0).1 = tknResolve0 tknAddr0 :=
  (getTknInfo_spec ⟨[]⟩ tknResolve0 tknAddr0).2.1 (by decide)

/-! ## Lemmas about `parseMethod` and the C4, C5, C10 theorems -/

theorem hexSig_eq (data : List Nat) (h : ∀ b ∈ data, b < 256) :
    hexToBytes (((hexEncode data).drop 2).take 8) = data.take 4 := by
  have h2 : (hexEncode data).drop 2 = bytesToHexChars data := rfl
  rw [h2, show (8 : Nat) = 2 * 4 from rfl, bytesToHexChars_take 4 data,
    hexToBytes_bytesToHexChars _ (fun b hb => h b (List.take_subset 4 data hb))]

theorem hexInput_eq (data : List Nat) (h : ∀ b ∈ data, b < 256) :
    hexToBytes ((hexEncode data).drop 10) = data.drop 4 := by
  have h2 : (hexEncode data).drop 10 = (bytesToHexChars data).drop 8 := rfl
  rw [h2, show (8 : Nat) = 2 * 4 from rfl, bytesToHexChars_drop 4 data,
    hexToBytes_bytesToHexChars _ (fun b hb => h b (List.drop_subset 4 data hb))]

theorem formatValue_ok_of_debug (env : GethEnv) (debug : Option Bool)
    (h : (debug == some true) = false) (v : GoValue) :
    ∃ v2, formatValue env debug v = .ok v2 := by
  cases v <;>
    first
      | exact ⟨_, rfl⟩
      | (simp only [formatValue, h]
         first
           | exact ⟨_, rfl⟩
           | (split <;> exact ⟨_, rfl⟩))

theorem formatParameters_ok_of_debug (env : GethEnv) (debug : Option Bool)
    (h : (debug == some true) = false) (ps : List (String × GoValue)) :
    ∃ out, formatParameters env ps debug = .ok out := by
  induction ps with
  | nil => exact ⟨[], rfl⟩
  | cons hd tl ih =>
    obtain ⟨k, v⟩ := hd
    obtain ⟨v2, hv⟩ := formatValue_ok_of_debug env debug h v
    obtain ⟨out, hout⟩ := ih
    exact ⟨(k, v2) :: out, by simp [formatParameters, hv, h, hout]⟩

/-- The `delegate(address)` method (selector `0x5c19a95c`) and an
interface defining only it, used by the C5 and C10 statements. -/
def methodDelegate : Method :=
  { name := "delegate", sig := "delegate(address)",
    id := [92, 25, 169, 92], unpackInputs := unpackSingleAddress "delegatee" }

def abiDelegate : ABI :=
  { methods := [("delegate", methodDelegate)], events := [] }

/-- The zero-argument `name()` method (selector `0x06fdde03`) and an
interface defining only it, used by the C4 statement. -/
def methodNameOnly : Method :=
  { name := "name", sig := "name()", id := [6, 253, 222, 3],
    unpackInputs := unpackNoArgs }

def abiNameOnly : ABI :=
  { methods := [("name", methodNameOnly)], events := [] }

/-- A transaction whose data is exactly the 4-byte selector of the
zero-argument method `name()`. -/
def txSelectorOnly : Transaction :=
  { data := [6, 253, 222, 3],
    toAddr := some ⟨"0xd22861049f6582BcAd6b7a33F211e6fC701DBBBB"⟩,
    hash := "0xaaaa" }

/-- C4.  Evaluation at the failing input: the transaction carries
exactly the 4-byte selector of `name()`, which the interface defines
and whose (empty) argument payload unpacks fine, and whose hex
encoding has exactly the 10 characters the code's own comment asks
for — yet `parseMethod` returns nil, because the guard
`len(string(tx.Data())) < 10` counts raw bytes instead of hex
characters and so rejects every 4-to-9-byte call. -/
theorem parseMethod_short_data_bug :
    parseMethod txSelectorOnly abiNameOnly envW none = GoResult.nil
    ∧ MethodById abiNameOnly (txSelectorOnly.data.take 4) = some methodNameOnly
    ∧ methodNameOnly.unpackInputs (txSelectorOnly.data.drop 4) = some []
    ∧ (hexEncode txSelectorOnly.data).length = 10 :=
  ⟨rfl, rfl, rfl, rfl⟩

/-- A transaction whose selector resolves to `delegate(address)` but
whose 6-byte argument payload is too short for the 32-byte address
word. -/
def txBadPayload : Transaction :=
  { data := [92, 25, 169, 92, 1, 2, 3, 4, 5, 6],
    toAddr := some ⟨"0xd22861049f6582BcAd6b7a33F211e6fC701DBBBB"⟩,
    hash := "0xbbbb" }

/-- C5.  Evaluation at the failing input: the selector resolves to
`delegate(address)` but the payload fails to unpack, and `parseMethod`
reaches `log.Fatal` — the process terminates instead of an error value
distinct from `NoMatch` being returned (the `return nil` after the
`log.Fatal` is dead code, and even it would be indistinguishable from
the no-match result). -/
theorem parseMethod_unpack_error_fatal :
    parseMethod txBadPayload abiDelegate envW none = GoResult.fatal
    ∧ MethodById abiDelegate (txBadPayload.data.take 4) = some methodDelegate
    ∧ methodDelegate.unpackInputs (txBadPayload.data.drop 4) = none :=
  ⟨rfl, rfl, rfl⟩

/-- C10 counterexample: a contract-creation transaction (`to` nil)
whose data decodes successfully still ends in `log.Fatal` when the
decoder's `Debug` flag is set, so the claim's unconditional "does not
fail" is refuted. -/
theorem parseMethod_nil_to_debug_fatal_cex :
    parseMethod
      { data := [92, 25, 169, 92] ++ List.replicate 32 0, toAddr := none,
        hash := "0xcccc" }
      abiDelegate envW (some true) = GoResult.fatal :=
  rfl

/-- C10 as amended.  For every transaction with a nil `to` address
whose data decodes successfully, and whenever the decoder's `Debug`
flag is not set to true, `parseMethod` succeeds and fills the
`Contract` field with the canonical zero address. -/
theorem parseMethod_contract_creation (tx : Transaction) (contractAbi : ABI)
    (env : GethEnv) (debug : Option Bool) (method : Method)
    (params : List (String × GoValue))
    (hto : tx.toAddr = none) (hdebug : debug ≠ some true)
    (hlen : 10 ≤ tx.data.length) (hbytes : ∀ b ∈ tx.data, b < 256)
    (hm : MethodById contractAbi (tx.data.take 4) = some method)
    (hu : method.unpackInputs (tx.data.drop 4) = some params) :
    ∃ d, parseMethod tx contractAbi env debug = GoResult.ok d
      ∧ d.contract = EtherAddress := by
  have hb : (debug == some true) = false := by
    cases debug with
    | none => rfl
    | some b =>
      cases b with
      | true => exact absurd rfl hdebug
      | false => rfl
  obtain ⟨out, hout⟩ := formatParameters_ok_of_debug env debug hb params
  refine ⟨{ transactionHash := tx.hash, contract := EtherAddress,
            sigHash := "0x" ++ String.mk (((hexEncode tx.data).drop 2).take 8),
            signature := method.sig, params := out }, ?_, rfl⟩
  unfold parseMethod
  rw [if_neg (Nat.not_lt.mpr hlen)]
  simp only [hexSig_eq tx.data hbytes, hexInput_eq tx.data hbytes, hm, hu, hto,
    hb, hout]
  rfl

/-- A contract-creation transaction carrying `delegate(address)` with a
full 32-byte argument word, for the C10 witness. -/
def txCreateOk : Transaction :=
  { data := [92, 25, 169, 92] ++ List.replicate 32 0, toAddr := none,
    hash := "0xdddd" }

/-- Witness for C10: the concrete creation transaction decodes to a
result whose contract is the zero address. -/
theorem parseMethod_contract_creation_witness :
    ∃ d, parseMethod txCreateOk abiDelegate envW none = GoResult.ok d
      ∧ d.contract = EtherAddress :=
  parseMethod_contract_creation txCreateOk abiDelegate envW none methodDelegate
    [("delegatee",
      GoValue.address
        ⟨"0x" ++ String.mk (bytesToHexChars (((txCreateOk.data.drop 4).take 32).drop 12))⟩)]
    rfl (by decide) (by decide) (by decide) rfl rfl
